import Mathlib

/-!
Verification of the `regtail` tail engine and watcher dispatcher
(`src/tail.rs`, `src/watcher.rs`, `src/filter.rs`, `src/main.rs`).

The embedding models file content as a `List Nat` of bytes.  A reader is a
position into that content; `read` into a buffer of `n` bytes returns
`(content.drop pos).take n` and advances the position by the number of bytes
returned, exactly as a `Read`/`Seek` pair over fixed content behaves.
Machine integers (`u64`/`usize`) stay well inside their range here, so they
are modelled as `Nat`.
-/

namespace Regtail

/-- `BUFFER_SIZE` from `src/tail.rs` (8 * 1024). -/
def bufferSize : Nat := 8 * 1024

/-- One `read` call over fixed content: the bytes returned when reading at
most `n` bytes starting at position `pos`. -/
def readBytes (content : List Nat) (pos n : Nat) : List Nat :=
  (content.drop pos).take n

/-- A `TailState` over a direct reader holding fixed content
(`TailState` in `src/tail.rs`: reader + seek position + `printed_eol`;
the writer's received bytes are returned by the operations). -/
structure TS where
  content : List Nat
  pos : Nat
  printedEol : Bool
deriving Repr, DecidableEq

/-- Result of `dump_to_tail`: final state, bytes written to the sink,
whether the sink was flushed, and the returned offset. -/
structure DumpResult where
  state : TS
  written : List Nat
  flushed : Bool
  ret : Nat
deriving Repr, DecidableEq

/-- The write/read loop of `dump_to_tail` (`src/tail.rs` lines 404-423):
writes `target`, reads the next `BUFFER_SIZE` chunk, and repeats until a
read returns zero bytes.  Returns the bytes written, the final offset and
the last byte read (`last_byte` in the source).  `fuel` bounds the
iteration count; `dumpToTail` supplies enough fuel for the loop to finish. -/
def dumpLoop (content : List Nat) (pos : Nat) (target : List Nat)
    (lastByte : Option Nat) : Nat → List Nat × Nat × Option Nat
  | 0 => (target, pos, lastByte)
  | fuel + 1 =>
    let t := readBytes content pos bufferSize
    if t.length = 0 then
      (target, pos, lastByte)
    else
      let r := dumpLoop content (pos + t.length) t t.getLast? fuel
      (target ++ r.1, r.2.1, r.2.2)

/-- `TailState::dump_to_tail` (`src/tail.rs` lines 387-425).  The first read
is sized to `BUFFER_LEN - offset % BUFFER_LEN`; if it returns zero bytes the
function returns at once without writing or flushing; otherwise the loop
writes and reads until a read returns zero, then flushes and records
`printed_eol` from the last byte read. -/
def dumpToTail (s : TS) : DumpResult :=
  let offset := s.pos
  let initialSize := bufferSize - offset % bufferSize
  let t0 := readBytes s.content s.pos initialSize
  let pos1 := s.pos + t0.length
  if t0.length = 0 then
    { state := { s with pos := pos1 }, written := [], flushed := false, ret := pos1 }
  else
    let r := dumpLoop s.content pos1 t0 t0.getLast? (s.content.length + 1)
    { state := { s with pos := r.2.1, printedEol := decide (r.2.2 = some 10) },
      written := r.1, flushed := true, ret := r.2.1 }

/-- `TailState::handle_shrink` (`src/tail.rs` lines 367-375): when the
reader's length is smaller than `offset` the file shrank, so seek to 0 and
return `true`; otherwise return `false` with no side effect. -/
def handleShrink (s : TS) (offset : Nat) : Bool × TS :=
  if s.content.length < offset then (true, { s with pos := 0 }) else (false, s)

/-- The inner `for` loop of `tail_start_position` (`src/tail.rs` lines
345-351): scan a window's bytes from highest index to lowest, counting
`0x0A` bytes; as soon as `eol_count` reaches `tail_count`, return the window
index of that newline.  `rev` is the window reversed (highest byte first)
and `len` the number of bytes remaining, so the byte at the head of `rev`
has window index `len - 1`.  Returns the found index or the updated
`eol_count`. -/
def windowScan : List Nat → Nat → Nat → Nat → Option Nat × Nat
  | [], _, eol, _ => (none, eol)
  | b :: rest, len, eol, tc =>
    if b = 10 then
      if tc ≤ eol + 1 then (some (len - 1), eol + 1)
      else windowScan rest (len - 1) (eol + 1) tc
    else windowScan rest (len - 1) eol tc

/-- The outer `loop` of `tail_start_position` (`src/tail.rs` lines 343-364):
scan the current window; on a hit return `start_index + i + 1`; otherwise,
once `start_index` is 0, return 0, else move one `BUFFER_SIZE` window back
and read it.  `startIndex` is always a multiple of `bufferSize`, so
`startIndex / bufferSize + 1` rounds of fuel suffice. -/
def tailScanLoop (content : List Nat) (tc eol startIndex : Nat)
    (target : List Nat) : Nat → Nat
  | 0 => 0
  | fuel + 1 =>
    match windowScan target.reverse target.length eol tc with
    | (some i, _) => startIndex + i + 1
    | (none, eol') =>
      if startIndex = 0 then 0
      else
        tailScanLoop content tc eol' (startIndex - bufferSize)
          (readBytes content (startIndex - bufferSize) bufferSize) fuel

/-- The `size` local of `tail_start_position`: `end_index % BUFFER_SIZE`,
or `BUFFER_SIZE` when that modulus is 0. -/
def tsSize (content : List Nat) : Nat :=
  if (content.length - 1) % bufferSize = 0 then bufferSize
  else (content.length - 1) % bufferSize

/-- The initial `start_index` local of `tail_start_position`:
`end_index - size`. -/
def tsStart (content : List Nat) : Nat :=
  content.length - 1 - tsSize content

/-- The first window of `tail_start_position`: the bytes read at
`start_index`, with a trailing `0x0A` dropped ("Skip last line ending"). -/
def tsFirstTarget (content : List Nat) : List Nat :=
  if (readBytes content (tsStart content) bufferSize).getLast? = some 10
  then (readBytes content (tsStart content) bufferSize).dropLast
  else readBytes content (tsStart content) bufferSize

/-- `TailState::tail_start_position` (`src/tail.rs` lines 298-365): empty
content gives 0; `tail_count = 0` seeks to the end and returns the length;
otherwise the file is scanned backward in `BUFFER_SIZE`-aligned windows,
the first window being read at `start_index = end_index - size` (`tsStart`)
with a trailing `0x0A` dropped from it (`tsFirstTarget`); the locals of the
source are split into the named helper definitions above. -/
def tailStartPosition (content : List Nat) (tailCount : Nat) : Nat :=
  if content.length = 0 then 0
  else if tailCount = 0 then content.length
  else if content.length - 1 = 0 then 0
  else
    tailScanLoop content tailCount 0 (tsStart content) (tsFirstTarget content)
      (tsStart content / bufferSize + 1)

/-- `TailState::seek_with_shrink_handling` (`src/tail.rs` lines 377-385):
reset to 0 on shrink, otherwise seek to `offset`. -/
def seekWithShrinkHandling (s : TS) (offset : Nat) : TS :=
  match handleShrink s offset with
  | (true, s') => s'
  | (false, s') => { s' with pos := offset }

/-- `tail_from_reader` (`src/tail.rs` lines 428-436): locator, then seek
with shrink handling, then dump.  Starts from a fresh `TailState` on
`content` as `tail2` builds one via `from_path`. -/
def tailFromReader (content : List Nat) (tailCount : Nat) : DumpResult :=
  let ts : TS := ⟨content, 0, false⟩
  let offset := tailStartPosition content tailCount
  dumpToTail (seekWithShrinkHandling ts offset)

/-- Helper for `specTailStart`: forward index of the `n`-th `0x0A` counted
from the end.  The first argument is the reversed byte list, the last the
number of bytes remaining (the head of the reversed list has forward index
`len - 1`). -/
def findNthFromEndAux : List Nat → Nat → Nat → Option Nat
  | [], _, _ => none
  | b :: rest, n, len =>
    if b = 10 then
      if n ≤ 1 then some (len - 1) else findNthFromEndAux rest (n - 1) (len - 1)
    else findNthFromEndAux rest n (len - 1)

/-- Forward index of the `n`-th `0x0A` of `l` counted from the end
(`n ≥ 1`), or `none` when `l` holds fewer than `n` newlines. -/
def findNthFromEnd (l : List Nat) (n : Nat) : Option Nat :=
  findNthFromEndAux l.reverse n l.length

/-- The region of `content` whose `0x0A` bytes are countable per the spec:
all of it, except that a `0x0A` as the very last byte is dropped. -/
def specScanRegion (content : List Nat) : List Nat :=
  if content.getLast? = some 10 then content.dropLast else content

/-- The tail start offset in the spec's words (claim C1): the offset just
after the `n`-th `0x0A` counted from the end of `content`, where a single
`0x0A` as the very last byte is not counted; 0 when fewer than `n`
countable newlines exist.  Written from the spec for comparison with
`tailStartPosition`, which is translated from the source. -/
def specTailStart (content : List Nat) (n : Nat) : Nat :=
  match findNthFromEnd (specScanRegion content) n with
  | some i => i + 1
  | none => 0

/-- The 8193-byte content exhibiting the window bug in
`tail_start_position`: 8191 times `0x61`, one `0x0A` at index 8191, and a
final `0x62` at index 8192 (so `end_index = 8192` is a multiple of
`BUFFER_SIZE`). -/
def c1Bad : List Nat := List.replicate 8191 97 ++ [10, 98]

-- "line1\n...line5\n", the unit-test fixture of `src/tail.rs`.
def demoContent : List Nat :=
  (List.range 5).flatMap fun i => [108, 105, 110, 101, 49 + i, 10]

example : demoContent.length = 30 := by decide
example : tailStartPosition demoContent 1 = 24 := by decide
example : specTailStart demoContent 1 = 24 := by decide
example : tailStartPosition demoContent 5 = 0 := by decide
example : tailStartPosition demoContent 6 = 0 := by decide
example : tailStartPosition demoContent 0 = 30 := by decide
example : tailStartPosition (demoContent.dropLast) 1 = 24 := by decide
example : specTailStart (demoContent.dropLast) 1 = 24 := by decide
example : (tailFromReader demoContent 1).written = [108, 105, 110, 101, 53, 10] := by decide

example : (dumpToTail ⟨[97, 98, 10], 0, false⟩).written = [97, 98, 10] := by decide
example : (dumpToTail ⟨[97, 98, 10], 0, false⟩).state.printedEol = true := by decide
example : (dumpToTail ⟨[97, 98], 0, false⟩).state.printedEol = false := by decide
example : (dumpToTail ⟨[97, 98, 10], 1, false⟩).written = [98, 10] := by decide
example : (dumpToTail ⟨[97, 98, 10], 3, true⟩).written = [] := by decide
example : (dumpToTail ⟨[97, 98, 10], 7, true⟩).ret = 7 := by decide

/-! ### Reader lemmas -/

theorem readBytes_length (c : List Nat) (p n : Nat) :
    (readBytes c p n).length = min n (c.length - p) := by
  simp [readBytes]

theorem readBytes_eq_nil {c : List Nat} {p : Nat} (h : c.length ≤ p) (n : Nat) :
    readBytes c p n = [] := by
  simp [readBytes, List.drop_eq_nil_of_le h]

theorem drop_eq_readBytes_append (c : List Nat) (p n : Nat) :
    c.drop p = readBytes c p n ++ c.drop (p + (readBytes c p n).length) := by
  rcases le_or_lt (c.length - p) n with h | h
  · have h1 : (c.drop p).length ≤ n := by simpa using h
    have h2 : readBytes c p n = c.drop p := by
      simp [readBytes, List.take_of_length_le h1]
    have h3 : c.length ≤ p + (c.drop p).length := by
      simp only [List.length_drop]; omega
    rw [h2, List.drop_eq_nil_of_le h3, List.append_nil]
  · have hlen : (readBytes c p n).length = n := by
      rw [readBytes_length]; omega
    rw [hlen]
    conv_lhs => rw [← List.take_append_drop n (c.drop p)]
    rw [List.drop_drop]
    rfl

theorem getLast?_drop_of_ne_nil {c : List Nat} {p : Nat} (h : c.drop p ≠ []) :
    (c.drop p).getLast? = c.getLast? := by
  obtain ⟨a, ha⟩ := Option.isSome_iff_exists.mp (List.getLast?_isSome.mpr h)
  conv_rhs => rw [← List.take_append_drop p c]
  rw [List.getLast?_append, ha]
  rfl

theorem readBytes_getLast? {c : List Nat} {p n : Nat} (hlt : p < c.length)
    (hfull : c.length ≤ p + (readBytes c p n).length) :
    (readBytes c p n).getLast? = c.getLast? := by
  have hlen := readBytes_length c p n
  have h1 : (readBytes c p n).length = c.length - p := by omega
  have h2 : c.length - p ≤ n := by omega
  have h3 : readBytes c p n = c.drop p := by
    have : (c.drop p).length ≤ n := by simp only [List.length_drop]; omega
    simp [readBytes, List.take_of_length_le this]
  rw [h3]
  have h4 : 0 < (c.drop p).length := by
    simp only [List.length_drop]
    omega
  exact getLast?_drop_of_ne_nil (List.length_pos.mp h4)

/-! ### `dump_to_tail` correctness -/

theorem dumpLoop_spec (c : List Nat) : ∀ fuel pos target lb,
    pos ≤ c.length → c.length - pos < fuel →
    dumpLoop c pos target lb fuel =
      (target ++ c.drop pos, c.length,
        if c.drop pos = [] then lb else c.getLast?) := by
  intro fuel
  induction fuel with
  | zero => intro pos target lb hpos hfuel; omega
  | succ fuel ih =>
    intro pos target lb hpos hfuel
    have hblen := readBytes_length c pos bufferSize
    by_cases h : (readBytes c pos bufferSize).length = 0
    · have hle : c.length ≤ pos := by
        have : bufferSize = 8192 := rfl
        omega
      have hposEq : pos = c.length := by omega
      subst hposEq
      have hdrop : c.drop c.length = [] := List.drop_eq_nil_of_le hle
      have hnil : readBytes c c.length bufferSize = [] := List.length_eq_zero.mp h
      simp [dumpLoop, hnil, hdrop]
    · have ht1 : 1 ≤ (readBytes c pos bufferSize).length := by omega
      have hpos' : pos + (readBytes c pos bufferSize).length ≤ c.length := by omega
      have hfuel' : c.length - (pos + (readBytes c pos bufferSize).length) < fuel := by
        omega
      have hrec := ih (pos + (readBytes c pos bufferSize).length)
        (readBytes c pos bufferSize) (readBytes c pos bufferSize).getLast? hpos' hfuel'
      have hdropPos : c.drop pos ≠ [] := by
        have : 0 < (c.drop pos).length := by
          simp only [List.length_drop]
          omega
        exact List.length_pos.mp this
      simp only [dumpLoop, h, if_false, hrec]
      refine Prod.ext ?_ (Prod.ext rfl ?_)
      · exact congrArg (fun l => target ++ l)
          (drop_eq_readBytes_append c pos bufferSize).symm
      · simp only [if_neg hdropPos]
        by_cases hend : c.drop (pos + (readBytes c pos bufferSize).length) = []
        · have hfull : c.length ≤ pos + (readBytes c pos bufferSize).length := by
            simpa [List.drop_eq_nil_iff] using hend
          simp only [hend, if_pos rfl]
          exact readBytes_getLast? (by omega) hfull
        · simp only [if_neg hend]

/-- Closed form of `dump_to_tail`: writes the suffix from the call-time
offset, moves the offset to `max pos length`, flushes and refreshes
`printed_eol` exactly when the first read returned bytes. -/
theorem dumpToTail_eq (s : TS) :
    dumpToTail s =
      { state := { content := s.content,
                   pos := max s.pos s.content.length,
                   printedEol := if s.pos < s.content.length
                     then decide (s.content.getLast? = some 10) else s.printedEol },
        written := s.content.drop s.pos,
        flushed := decide (s.pos < s.content.length),
        ret := max s.pos s.content.length } := by
  have hblen := readBytes_length s.content s.pos (bufferSize - s.pos % bufferSize)
  by_cases h : (readBytes s.content s.pos (bufferSize - s.pos % bufferSize)).length = 0
  · have hle : s.content.length ≤ s.pos := by
      have h8 : bufferSize = 8192 := rfl
      have hmod : s.pos % bufferSize < bufferSize := Nat.mod_lt _ (by decide)
      omega
    have hdrop : s.content.drop s.pos = [] := List.drop_eq_nil_of_le hle
    have hmax : max s.pos s.content.length = s.pos := by omega
    have hlt : ¬ s.pos < s.content.length := by omega
    simp [dumpToTail, h, hdrop, hmax, hlt]
  · have h8 : bufferSize = 8192 := rfl
    have hmod : s.pos % bufferSize < bufferSize := Nat.mod_lt _ (by decide)
    have hlt : s.pos < s.content.length := by omega
    have hpos' : s.pos + (readBytes s.content s.pos
        (bufferSize - s.pos % bufferSize)).length ≤ s.content.length := by omega
    have hrec := dumpLoop_spec s.content (s.content.length + 1)
      (s.pos + (readBytes s.content s.pos (bufferSize - s.pos % bufferSize)).length)
      (readBytes s.content s.pos (bufferSize - s.pos % bufferSize))
      (readBytes s.content s.pos (bufferSize - s.pos % bufferSize)).getLast?
      hpos' (by omega)
    have hmax : max s.pos s.content.length = s.content.length := by omega
    have hlast : (if s.content.drop (s.pos + (readBytes s.content s.pos
        (bufferSize - s.pos % bufferSize)).length) = []
        then (readBytes s.content s.pos (bufferSize - s.pos % bufferSize)).getLast?
        else s.content.getLast?) = s.content.getLast? := by
      by_cases hend : s.content.drop (s.pos + (readBytes s.content s.pos
          (bufferSize - s.pos % bufferSize)).length) = []
      · have hfull : s.content.length ≤ s.pos + (readBytes s.content s.pos
            (bufferSize - s.pos % bufferSize)).length := by
          simpa [List.drop_eq_nil_iff] using hend
        simp only [hend, if_pos rfl]
        exact readBytes_getLast? hlt hfull
      · simp only [if_neg hend]
    unfold dumpToTail
    simp only [h, if_false, hrec, hlast, DumpResult.mk.injEq, TS.mk.injEq]
    refine ⟨⟨trivial, hmax.symm, by rw [if_pos hlt]⟩, ?_, by simp [hlt], hmax.symm⟩
    exact (drop_eq_readBytes_append _ _ _).symm

/-- C2 (amended): `dump_to_tail` writes to the sink exactly the content
from the call-time offset to end-of-content.  When the call-time offset is
strictly below the content length, the returned offset (and the state's
offset) equals the content length and the sink was flushed; when the
offset is at or past end-of-content the call returns the call-time offset
and does not flush.  `printed_eol` becomes `last byte written = 0x0A`
whenever bytes were written and keeps its prior value otherwise. -/
theorem dumpToTail_correct (s : TS) :
    (dumpToTail s).written = s.content.drop s.pos
    ∧ (dumpToTail s).ret = (if s.pos < s.content.length then s.content.length else s.pos)
    ∧ (dumpToTail s).state.pos = (dumpToTail s).ret
    ∧ (dumpToTail s).state.content = s.content
    ∧ (dumpToTail s).state.printedEol =
        (if (dumpToTail s).written = [] then s.printedEol
          else decide ((dumpToTail s).written.getLast? = some 10))
    ∧ (dumpToTail s).flushed = decide (s.pos < s.content.length) := by
  rw [dumpToTail_eq]
  dsimp only
  refine ⟨rfl, ?_, rfl, rfl, ?_, rfl⟩
  · rcases lt_or_ge s.pos s.content.length with h | h
    · rw [if_pos h]; omega
    · rw [if_neg (Nat.not_lt.mpr h)]; omega
  · rcases lt_or_ge s.pos s.content.length with h | h
    · have hne : s.content.drop s.pos ≠ [] := by
        have : 0 < (s.content.drop s.pos).length := by
          simp only [List.length_drop]; omega
        exact List.length_pos.mp this
      rw [if_pos h, if_neg hne, getLast?_drop_of_ne_nil hne]
    · have hnil : s.content.drop s.pos = [] := List.drop_eq_nil_of_le h
      rw [if_neg (Nat.not_lt.mpr h), if_pos hnil]

/-- C2 counterexample: a `TailState` whose offset (5) is past the end of
its 1-byte content `[0x0A]`.  `dump_to_tail` returns 5, not the content
length 1, and `printed_eol` keeps its prior value `true` although no byte
was written, refuting the claim's unconditional second and third
conjuncts. -/
theorem dumpToTail_ret_counterexample :
    (dumpToTail ⟨[10], 5, true⟩).written = []
    ∧ (dumpToTail ⟨[10], 5, true⟩).ret = 5
    ∧ (dumpToTail ⟨[10], 5, true⟩).state.printedEol = true
    ∧ ([10] : List Nat).length = 1
    ∧ (5 : Nat) ≠ 1 := by decide

/-- C9: when the current offset is at or past end-of-content, the first
read of `dump_to_tail` returns zero bytes, and the call returns the
offset unchanged: nothing is written, the sink is not flushed, and
`printed_eol` (with the rest of the state) keeps its prior value. -/
theorem dumpToTail_noop_at_eof {s : TS} (h : s.content.length ≤ s.pos) :
    dumpToTail s = ⟨s, [], false, s.pos⟩ := by
  rw [dumpToTail_eq]
  have h1 : max s.pos s.content.length = s.pos := by omega
  have h2 : ¬ s.pos < s.content.length := by omega
  have h3 : s.content.drop s.pos = [] := List.drop_eq_nil_of_le h
  simp [h1, h2, h3]

/-- Witness for `dumpToTail_noop_at_eof` at content `[0x61]` and offset 5. -/
theorem dumpToTail_noop_at_eof_witness :
    ([97] : List Nat).length ≤ 5
    ∧ dumpToTail ⟨[97], 5, true⟩ = ⟨⟨[97], 5, true⟩, [], false, 5⟩ :=
  ⟨by decide, dumpToTail_noop_at_eof (by decide)⟩

/-- C8: `handle_shrink(offset)` returns `true` and resets `current_seek`
to 0 exactly when the reader's length is strictly smaller than `offset`;
when the length is at least `offset` it returns `false` and the whole
state is unchanged. -/
theorem handleShrink_correct (s : TS) (offset : Nat) :
    ((handleShrink s offset).1 = true ↔ s.content.length < offset)
    ∧ (((handleShrink s offset).1 = true ∧ (handleShrink s offset).2.pos = 0)
        ↔ s.content.length < offset)
    ∧ (handleShrink s offset).2 =
        (if s.content.length < offset then { s with pos := 0 } else s) := by
  unfold handleShrink
  by_cases h : s.content.length < offset
  · simp [h]
  · simp [h]

/-! ### C1: the reverse-scan locator -/

theorem windowScan_replicate (k : Nat) : ∀ len eol tc,
    windowScan (List.replicate k 97) len eol tc = (none, eol) := by
  induction k with
  | zero => intro len eol tc; rfl
  | succ k ih => intro len eol tc; simp [List.replicate_succ, windowScan, ih]

theorem c1Bad_length : c1Bad.length = 8193 := by
  rw [c1Bad, List.length_append, List.length_replicate]
  rfl

theorem c1Bad_firstWindow : readBytes c1Bad 0 8192 = List.replicate 8191 97 ++ [10] := by
  rw [readBytes, c1Bad, List.drop_zero, List.take_append_eq_append_take,
    List.take_of_length_le (by rw [List.length_replicate]; norm_num),
    List.length_replicate]
  rfl

theorem tailScanLoop_replicate_zero (c : List Nat) (tc eol k fuel : Nat) :
    tailScanLoop c tc eol 0 (List.replicate k 97) (fuel + 1) = 0 := by
  simp only [tailScanLoop, List.reverse_replicate, List.length_replicate,
    windowScan_replicate, if_true, eq_self_iff_true]

theorem c1Bad_tsStart : tsStart c1Bad = 0 := by
  rw [tsStart, tsSize, c1Bad_length]
  norm_num [bufferSize]

theorem c1Bad_tsFirstTarget : tsFirstTarget c1Bad = List.replicate 8191 97 := by
  rw [tsFirstTarget, c1Bad_tsStart]
  rw [show (bufferSize : Nat) = 8192 from rfl, c1Bad_firstWindow,
    List.getLast?_concat, if_pos (rfl : (some 10 : Option Nat) = some 10),
    List.dropLast_concat]

theorem c1Bad_tailStartPosition : tailStartPosition c1Bad 1 = 0 := by
  rw [tailStartPosition, c1Bad_length]
  rw [if_neg (by norm_num : ¬ ((8193 : Nat) = 0)),
    if_neg (by norm_num : ¬ ((1 : Nat) = 0)),
    if_neg (by norm_num : ¬ ((8193 : Nat) - 1 = 0)),
    c1Bad_tsStart, c1Bad_tsFirstTarget]
  exact tailScanLoop_replicate_zero c1Bad 1 0 8191 (0 / bufferSize)

theorem c1Bad_specTailStart : specTailStart c1Bad 1 = 8192 := by
  have hsplit : ([10, 98] : List Nat) = [10] ++ [98] := rfl
  have hg : c1Bad.getLast? = some 98 := by
    rw [c1Bad, hsplit, ← List.append_assoc, List.getLast?_concat]
  have hrev : c1Bad.reverse = 98 :: 10 :: List.replicate 8191 97 := by
    rw [c1Bad, List.reverse_append, List.reverse_replicate]
    rfl
  have hscan : specScanRegion c1Bad = c1Bad := by
    rw [specScanRegion, hg, if_neg (by decide : ¬ ((some 98 : Option Nat) = some 10))]
  rw [specTailStart, hscan, findNthFromEnd, hrev, c1Bad_length]
  simp [findNthFromEndAux]

/-- C1 (code bug): at the 8193-byte content `c1Bad` (8191 times `0x61`,
then `0x0A`, then `0x62`) and `N = 1`, `tail_start_position` returns 0 and
the composite `tail_from_reader` writes the whole content.  `end_index =
8192` is a multiple of `BUFFER_SIZE`, so the first window covers bytes
`[0, 8192)` excluding the final byte, and the trailing-newline skip then
drops the `0x0A` at index 8191 even though it is not the file's last byte.
The suffix after the 1st countable `0x0A` from the end starts at 8192 and
is `[0x62]`, and the code's own intent (skip only the file's trailing
newline) gives that answer. -/
theorem tailFromReader_window_code_bug :
    tailStartPosition c1Bad 1 = 0
    ∧ (tailFromReader c1Bad 1).written = c1Bad
    ∧ specTailStart c1Bad 1 = 8192
    ∧ c1Bad.drop 8192 = [98] := by
  refine ⟨c1Bad_tailStartPosition, ?_, c1Bad_specTailStart, ?_⟩
  · have hseek : seekWithShrinkHandling ⟨c1Bad, 0, false⟩ 0 = ⟨c1Bad, 0, false⟩ := by
      simp [seekWithShrinkHandling, handleShrink]
    simp only [tailFromReader, c1Bad_tailStartPosition, hseek, dumpToTail_eq,
      List.drop_zero]
  · rw [c1Bad, List.drop_append_eq_append_drop,
      List.drop_eq_nil_of_le (by rw [List.length_replicate]; norm_num),
      List.length_replicate]
    rfl

/-! ### C4: `TransparentReader` over a shared handle -/

/-- The shared underlying reader of a `TransparentReader`: one OS handle
(fixed content plus current handle position) that may be aliased by
several logical readers through the LRU pool (`src/tail.rs` lines 47-58). -/
structure SharedHandle where
  content : List Nat
  hpos : Nat
deriving Repr, DecidableEq

/-- The per-logical-reader state of a `TransparentReader`: the stored
logical offset `reader_seek_pos`. -/
structure TReader where
  seekPos : Nat
deriving Repr, DecidableEq

/-- `impl Read for TransparentReader` (`src/tail.rs` lines 86-101): read
from the underlying handle wherever it currently stands — there is no
re-seek — then advance the stored logical offset by the number of bytes
returned.  Returns (bytes, new handle, new logical reader). -/
def transparentRead (sh : SharedHandle) (r : TReader) (n : Nat) :
    List Nat × SharedHandle × TReader :=
  let bytes := readBytes sh.content sh.hpos n
  (bytes, { sh with hpos := sh.hpos + bytes.length },
    { r with seekPos := r.seekPos + bytes.length })

/-- `std::io::SeekFrom`. -/
inductive SeekFrom where
  | start (n : Nat)
  | fromEnd (off : Int)
  | current (off : Int)
deriving Repr, DecidableEq

/-- `impl Seek for TransparentReader` (`src/tail.rs` lines 103-127): a
`Current`-relative seek first re-seeks the underlying handle to the stored
offset (`SeekFrom::Start(self.reader_seek_pos)`) and then applies the
relative amount; `Start`/`End` seeks go straight through.  On success the
stored offset is updated to the position the underlying seek returned; a
seek to a negative position fails (first component `none`) and, as for
`File::seek`, moves nothing. -/
def transparentSeek (sh : SharedHandle) (r : TReader) (pos : SeekFrom) :
    Option Nat × SharedHandle × TReader :=
  match pos with
  | .start n => (some n, { sh with hpos := n }, { r with seekPos := n })
  | .fromEnd off =>
    let tgt : Int := (sh.content.length : Int) + off
    if 0 ≤ tgt then
      (some tgt.toNat, { sh with hpos := tgt.toNat }, { r with seekPos := tgt.toNat })
    else (none, sh, r)
  | .current off =>
    let sh1 := { sh with hpos := r.seekPos }
    let tgt : Int := (r.seekPos : Int) + off
    if 0 ≤ tgt then
      (some tgt.toNat, { sh1 with hpos := tgt.toNat }, { r with seekPos := tgt.toNat })
    else (none, sh1, r)

/-- C4 counterexample: content `[5, 6]`, a logical reader whose stored
offset is 0, and a shared handle another owner moved to position 1.  The
read returns `[6]`, the byte at the handle's position, not `[5]`, the byte
at the stored offset: `Read` performs no re-seek. -/
theorem transparentRead_no_reseek_counterexample :
    (transparentRead ⟨[5, 6], 1⟩ ⟨0⟩ 1).1 = [6]
    ∧ readBytes [5, 6] 0 1 = [5]
    ∧ ([6] : List Nat) ≠ [5] := by decide

/-- C4 (amended): a read returns the bytes at the underlying handle's
current position (no re-seek), and both the handle position and the stored
logical offset advance by the number of bytes returned; the absolute
re-seek to the stored offset happens only for `Current`-relative seeks,
which resolve against the stored offset (not the handle position) and set
both positions to the result; an absolute seek sets both positions to its
target. -/
theorem transparentReader_read_seek_correct (sh : SharedHandle) (r : TReader)
    (n : Nat) (off : Int) :
    (transparentRead sh r n).1 = readBytes sh.content sh.hpos n
    ∧ (transparentRead sh r n).2.1.hpos = sh.hpos + (transparentRead sh r n).1.length
    ∧ (transparentRead sh r n).2.2.seekPos = r.seekPos + (transparentRead sh r n).1.length
    ∧ (transparentRead sh r n).2.1.content = sh.content
    ∧ (0 ≤ (r.seekPos : Int) + off →
        transparentSeek sh r (.current off) =
          (some ((r.seekPos : Int) + off).toNat,
            ⟨sh.content, ((r.seekPos : Int) + off).toNat⟩,
            ⟨((r.seekPos : Int) + off).toNat⟩))
    ∧ transparentSeek sh r (.start n) = (some n, ⟨sh.content, n⟩, ⟨n⟩) := by
  refine ⟨rfl, rfl, rfl, rfl, ?_, rfl⟩
  intro h
  simp [transparentSeek, h]

/-- Witness for `transparentReader_read_seek_correct` at content `[5, 6]`,
handle position 1, stored offset 0, `n = 1`, `off = 1`. -/
theorem transparentReader_read_seek_correct_witness :
    (transparentRead ⟨[5, 6], 1⟩ ⟨0⟩ 1).1 = readBytes [5, 6] 1 1
    ∧ (transparentRead ⟨[5, 6], 1⟩ ⟨0⟩ 1).2.1.hpos =
        1 + (transparentRead ⟨[5, 6], 1⟩ ⟨0⟩ 1).1.length
    ∧ (transparentRead ⟨[5, 6], 1⟩ ⟨0⟩ 1).2.2.seekPos =
        0 + (transparentRead ⟨[5, 6], 1⟩ ⟨0⟩ 1).1.length
    ∧ (transparentRead ⟨[5, 6], 1⟩ ⟨0⟩ 1).2.1.content = [5, 6]
    ∧ (0 ≤ ((0 : Nat) : Int) + (1 : Int) →
        transparentSeek ⟨[5, 6], 1⟩ ⟨0⟩ (.current 1) =
          (some (((0 : Nat) : Int) + (1 : Int)).toNat,
            ⟨[5, 6], (((0 : Nat) : Int) + (1 : Int)).toNat⟩,
            ⟨(((0 : Nat) : Int) + (1 : Int)).toNat⟩))
    ∧ transparentSeek ⟨[5, 6], 1⟩ ⟨0⟩ (.start 1) = (some 1, ⟨[5, 6], 1⟩, ⟨1⟩) :=
  transparentReader_read_seek_correct ⟨[5, 6], 1⟩ ⟨0⟩ 1 1

/-! ### C6: `tail2` and the bootstrap error path -/

/-- `notify::Error` as matched by `follow` (`src/main.rs` lines 37-57). -/
inductive NotifyErr where
  | generic
  | io
  | pathNotFound
  | watchNotFound
deriving Repr, DecidableEq

/-- The exit-code mapping of `follow` (`src/main.rs` lines 37-57):
`Generic` → 1 (`EX_ERR`), `Io` → 74 (`EX_IOERR`), `PathNotFound` → 66
(`EX_NOINPUT`), `WatchNotFound` → 70 (`EX_SOFTWARE`). -/
def followErrCode : NotifyErr → Nat
  | .generic => 1
  | .io => 74
  | .pathNotFound => 66
  | .watchNotFound => 70

/-- A `CachedTailState` whose reader opens the file lazily: `from_path`
never touches the file, so it cannot fail; `file` is what the first actual
use of the reader will see — `none` for a permanent open failure
(`src/tail.rs` lines 66-83, 194-207). -/
structure LazyTS where
  file : Option (List Nat)
  pos : Nat
  printedEol : Bool
deriving Repr, DecidableEq

/-- `tail_from_reader` on a lazy reader: the first reader use (the `len()`
call at the top of `tail_start_position`) surfaces the open failure; on
success the pure model `tailFromReader` gives the effect. -/
def tailFromReaderE (ts : LazyTS) (tailCount : Nat) : Option (LazyTS × DumpResult) :=
  match ts.file with
  | none => none
  | some content =>
    let r := tailFromReader content tailCount
    some ({ ts with pos := r.state.pos, printedEol := r.state.printedEol }, r)

/-- `tail2` (`src/tail.rs` lines 438-442): builds the tail state via
`from_path` (infallible, the open being lazy), runs `tail_from_reader`,
and discards its result (`let _offset = tail_from_reader(..)`), returning
`Ok(tail_state)` unconditionally.  `none` would model an `Err` return. -/
def tail2 (file : Option (List Nat)) (tailCount : Nat) : Option LazyTS :=
  let ts : LazyTS := ⟨file, 0, false⟩
  match tailFromReaderE ts tailCount with
  | some (ts', _) => some ts'
  | none => some ts

/-- C6 counterexample: with a file whose open fails permanently
(`file = none`) and the default `N = 10`, `tail2` still returns `Ok`: the
open failure during bootstrap is swallowed, not surfaced as an I/O
error. -/
theorem tail2_swallows_open_failure :
    tail2 none 10 = some ⟨none, 0, false⟩
    ∧ (tail2 none 10).isSome = true := by decide

/-- C6 (amended): `tail2` never returns an error — a permanent open
failure during bootstrap is discarded by `let _offset = ...` and the
bootstrap continues; an I/O error that does surface out of
`follow_dir` (e.g. a failing canonicalize during bootstrap, or a failing
write during event handling) is mapped by `follow` to exit code 74. -/
theorem tail2_ok_and_io_exit_code (file : Option (List Nat)) (tc : Nat) :
    (tail2 file tc).isSome = true ∧ followErrCode .io = 74 := by
  refine ⟨?_, rfl⟩
  cases file <;> simp [tail2, tailFromReaderE]

/-! ### Association-list maps (model of `HashMap`) -/

def lookupA {κ α : Type} [DecidableEq κ] (k : κ) : List (κ × α) → Option α
  | [] => none
  | (k', v) :: rest => if k' = k then some v else lookupA k rest

def eraseA {κ α : Type} [DecidableEq κ] (k : κ) : List (κ × α) → List (κ × α)
  | [] => []
  | (k', v) :: rest => if k' = k then eraseA k rest else (k', v) :: eraseA k rest

/-- `HashMap::insert`: the new binding shadows (removes) any old one. -/
def insertA {κ α : Type} [DecidableEq κ] (k : κ) (v : α) (l : List (κ × α)) :
    List (κ × α) :=
  (k, v) :: eraseA k l

theorem lookupA_insertA_self {κ α : Type} [DecidableEq κ] (k : κ) (v : α)
    (l : List (κ × α)) : lookupA k (insertA k v l) = some v := by
  simp [insertA, lookupA]

theorem lookupA_eraseA_self {κ α : Type} [DecidableEq κ] (k : κ)
    (l : List (κ × α)) : lookupA k (eraseA k l) = none := by
  induction l with
  | nil => rfl
  | cons hd tl ih =>
    obtain ⟨k', v⟩ := hd
    by_cases h : k' = k
    · simp [eraseA, h, ih]
    · simp [eraseA, lookupA, h, ih]

theorem lookupA_eraseA_ne {κ α : Type} [DecidableEq κ] {k k' : κ} (h : k' ≠ k)
    (l : List (κ × α)) : lookupA k' (eraseA k l) = lookupA k' l := by
  induction l with
  | nil => rfl
  | cons hd tl ih =>
    obtain ⟨k'', v⟩ := hd
    by_cases h2 : k'' = k
    · subst h2
      simp [eraseA, lookupA, Ne.symm h, ih]
    · by_cases h3 : k'' = k'
      · simp [eraseA, lookupA, h, h2, h3, ih]
      · simp [eraseA, lookupA, h, h2, h3, ih]

theorem lookupA_insertA_ne {κ α : Type} [DecidableEq κ] {k k' : κ} (h : k' ≠ k)
    (v : α) (l : List (κ × α)) : lookupA k' (insertA k v l) = lookupA k' l := by
  simp [insertA, lookupA, Ne.symm h, lookupA_eraseA_ne h]

theorem eraseA_eraseA {κ α : Type} [DecidableEq κ] (k : κ) (l : List (κ × α)) :
    eraseA k (eraseA k l) = eraseA k l := by
  induction l with
  | nil => rfl
  | cons hd tl ih =>
    obtain ⟨k', v⟩ := hd
    by_cases h : k' = k
    · simp [eraseA, h, ih]
    · simp [eraseA, h, ih]

theorem eraseA_insertA {κ α : Type} [DecidableEq κ] (k : κ) (v : α)
    (l : List (κ × α)) : eraseA k (insertA k v l) = eraseA k l := by
  simp [insertA, eraseA, eraseA_eraseA]

theorem eraseA_of_lookupA_none {κ α : Type} [DecidableEq κ] {k : κ}
    {l : List (κ × α)} (h : lookupA k l = none) : eraseA k l = l := by
  induction l with
  | nil => rfl
  | cons hd tl ih =>
    obtain ⟨k', v⟩ := hd
    by_cases h2 : k' = k
    · simp [lookupA, h2] at h
    · simp [lookupA, h2] at h
      simp [eraseA, h2, ih h]

/-! ### C7: `handle_rename` and the renaming map -/

/-- The watcher state `handle_rename` touches (`src/watcher.rs` lines
38-50): `file_map` (canonical path → `TailState`, here abstracted to a
tag), `renaming_map` (cookie → `Option<TailState>`), and
`selected_file_path`.  Paths and state tags are `Nat`s; the bytes
`unsubscribe_select_file` prints are not part of this claim and are not
returned. -/
structure RenState where
  fileMap : List (Nat × Nat)
  renamingMap : List (Nat × Option Nat)
  selected : Option Nat
deriving Repr, DecidableEq

/-- `DirectoryWatcher::handle_rename` (`src/watcher.rs` lines 226-258):
only acts when a cookie is present.  A cookie already in `renaming_map`
is removed: a saved state is re-inserted under the new path when the
filter matches (dropped otherwise), a `None` tombstone is just consumed.
A new cookie saves `Some(state)` pulled out of `file_map` (unsubscribing
the selected file when it was the renamed one) or a `None` tombstone when
the path is untracked. -/
def handleRename (matcher : Nat → Bool) (st : RenState) (path : Nat)
    (cookie : Option Nat) : RenState :=
  match cookie with
  | none => st
  | some c =>
    match lookupA c st.renamingMap with
    | some (some file) =>
      if ¬ matcher path then { st with renamingMap := eraseA c st.renamingMap }
      else { st with renamingMap := eraseA c st.renamingMap,
                     fileMap := insertA path file st.fileMap }
    | some none => { st with renamingMap := eraseA c st.renamingMap }
    | none =>
      match lookupA path st.fileMap with
      | some file =>
        { fileMap := eraseA path st.fileMap,
          renamingMap := insertA c (some file) st.renamingMap,
          selected := if st.selected = some path then none else st.selected }
      | none => { st with renamingMap := insertA c none st.renamingMap }

/-- C7: for a cookie not yet in `renaming_map`, the first `handle_rename`
call inserts exactly one entry — `Some(state)` when the event path was
tracked, the `None` tombstone otherwise (the inserted value is literally
`file_map`'s lookup) — and removes a tracked path from `file_map`; the
second call with the same cookie consumes the entry, leaving
`renaming_map` exactly as it started (so the cookie is absent and the
saved state cannot be applied again), and re-inserts the saved state under
the new path only when the filter matches. -/
theorem handleRename_cookie_protocol (matcher : Nat → Bool) (st : RenState)
    (p1 p2 c : Nat) (hc : lookupA c st.renamingMap = none) :
    (handleRename matcher st p1 (some c)).renamingMap
        = insertA c (lookupA p1 st.fileMap) st.renamingMap
    ∧ (handleRename matcher st p1 (some c)).fileMap
        = (match lookupA p1 st.fileMap with
           | some _ => eraseA p1 st.fileMap
           | none => st.fileMap)
    ∧ lookupA c (handleRename matcher (handleRename matcher st p1 (some c))
        p2 (some c)).renamingMap = none
    ∧ (handleRename matcher (handleRename matcher st p1 (some c))
        p2 (some c)).renamingMap = st.renamingMap
    ∧ (handleRename matcher (handleRename matcher st p1 (some c))
        p2 (some c)).fileMap
        = (match lookupA p1 st.fileMap with
           | some f => if matcher p2
               then insertA p2 f (eraseA p1 st.fileMap)
               else eraseA p1 st.fileMap
           | none => st.fileMap) := by
  have herase : eraseA c st.renamingMap = st.renamingMap := eraseA_of_lookupA_none hc
  cases hp : lookupA p1 st.fileMap with
  | some f =>
    by_cases hm : matcher p2
    · simp [handleRename, hc, hp, lookupA_insertA_self, eraseA_insertA, herase, hm]
    · simp [handleRename, hc, hp, lookupA_insertA_self, eraseA_insertA, herase, hm]
  | none =>
    simp [handleRename, hc, hp, lookupA_insertA_self, eraseA_insertA, herase]

/-- Witness for `handleRename_cookie_protocol`: path 1 tracked with state
tag 42, cookie 7, the all-accepting filter, second half at path 2. -/
theorem handleRename_cookie_protocol_witness :
    lookupA 7 (RenState.mk [(1, 42)] [] (some 1)).renamingMap = none
    ∧ ((handleRename (fun _ => true) ⟨[(1, 42)], [], some 1⟩ 1 (some 7)).renamingMap
          = [(7, some 42)]
      ∧ (handleRename (fun _ => true) ⟨[(1, 42)], [], some 1⟩ 1 (some 7)).fileMap = []
      ∧ lookupA 7 (handleRename (fun _ => true)
          (handleRename (fun _ => true) ⟨[(1, 42)], [], some 1⟩ 1 (some 7))
          2 (some 7)).renamingMap = none
      ∧ (handleRename (fun _ => true)
          (handleRename (fun _ => true) ⟨[(1, 42)], [], some 1⟩ 1 (some 7))
          2 (some 7)).renamingMap = []
      ∧ (handleRename (fun _ => true)
          (handleRename (fun _ => true) ⟨[(1, 42)], [], some 1⟩ 1 (some 7))
          2 (some 7)).fileMap = [(2, 42)]) :=
  ⟨rfl, handleRename_cookie_protocol (fun _ => true) ⟨[(1, 42)], [], some 1⟩ 1 2 7 rfl⟩

/-! ### The watcher's write dispatcher (C3, C5, C10) -/

/-- An OS path string: either valid UTF-8 (carrying its text as bytes) or
not (`Path::to_str` returns `None`). -/
inductive OsStr where
  | utf8 (s : List Nat)
  | invalid (raw : List Nat)
deriving Repr, DecidableEq

/-- `Path::to_str`. -/
def OsStr.toStr? : OsStr → Option (List Nat)
  | .utf8 s => some s
  | .invalid _ => none

/-- `Path::to_string_lossy`, as used for banner display; the lossy
replacement of invalid bytes is abstracted to the raw bytes. -/
def OsStr.displayBytes : OsStr → List Nat
  | .utf8 s => s
  | .invalid raw => raw

/-- `PathFilter::match_path` (`src/filter.rs` lines 97-102): `to_str`,
then the regex — abstracted to a predicate on the UTF-8 byte string; a
path that is not valid UTF-8 never matches. -/
def matchPath (matcher : List Nat → Bool) (p : OsStr) : Bool :=
  match p.toStr? with
  | some s => matcher s
  | none => false

/-- The banner line `==> <path> <==\n` printed by `print_normalized_path`
(`src/watcher.rs` lines 80-92, colorize off); the display normalization
(`diff_paths` relativization, `./` trimming) is abstracted into
`displayBytes`. -/
def bannerBytes (p : OsStr) : List Nat :=
  [61, 61, 62, 32] ++ p.displayBytes ++ [32, 60, 61, 61, 10]

/-- The dispatcher state the banner logic reads (`src/watcher.rs` lines
38-50): `selected_file_path` and, for each tracked file of `file_map`, its
`printed_eol` flag. -/
structure WState where
  selected : Option OsStr
  fileMap : List (OsStr × Bool)
deriving Repr, DecidableEq

/-- `DirectoryWatcher::print_file_path` (`src/watcher.rs` lines 146-166):
when a file is selected and its `file_map` entry has `printed_eol` false,
an extra `\n` (the `println!()`); then the `preceding` separator — `\n`
when a file is selected, nothing for the program's first banner; then the
banner line. -/
def printFilePath (st : WState) (p : OsStr) : List Nat :=
  (match st.selected with
   | some sel =>
     (match lookupA sel st.fileMap with
      | some eol => if eol then [] else [10]
      | none => []) ++ [10]
   | none => []) ++ bannerBytes p

/-- `DirectoryWatcher::change_selected_file` (`src/watcher.rs` lines
180-192): print the banner block and update `selected_file_path` on a
transition or on the first selection; no output when the path is already
selected. -/
def changeSelectedFile (st : WState) (p : OsStr) : List Nat × WState :=
  match st.selected with
  | some last =>
    if last = p then ([], st)
    else (printFilePath st p, { st with selected := some p })
  | none => (printFilePath st p, { st with selected := some p })

/-- A WRITE event for the dispatcher model: the (normalized) path, whether
the file exists on disk at dispatch time, and the bytes `dump_to_tail`
emits for it (empty when the dump reads nothing). -/
structure WEvent where
  path : OsStr
  onDisk : Bool
  dump : List Nat
deriving Repr, DecidableEq

/-- The `printed_eol` update a dump performs (theorem `dumpToTail_correct`):
unchanged when no byte was read, else `last byte = 0x0A`. -/
def eolAfter (old : Bool) (dump : List Nat) : Bool :=
  if dump = [] then old else decide (dump.getLast? = some 10)

/-- `DirectoryWatcher::handle_write` (`src/watcher.rs` lines 194-223):
return early unless the path matches the regex; `change_selected_file`
(banner transition); then for a tracked path shrink-handle and dump, for
an untracked on-disk path create a fresh state (`printed_eol = false`) and
dump, and for a vanished path do nothing more.  The dump's bytes are the
event's `dump` field. -/
def handleWrite (matcher : List Nat → Bool) (st : WState) (e : WEvent) :
    List Nat × WState :=
  if ¬ matchPath matcher e.path then ([], st)
  else
    let b := changeSelectedFile st e.path
    match lookupA e.path b.2.fileMap with
    | some eol =>
      (b.1 ++ e.dump,
        { b.2 with fileMap := insertA e.path (eolAfter eol e.dump) b.2.fileMap })
    | none =>
      if e.onDisk then
        (b.1 ++ e.dump,
          { b.2 with fileMap := insertA e.path (eolAfter false e.dump) b.2.fileMap })
      else (b.1, b.2)

/-- The event loop restricted to WRITE events: dispatch each event in
order and concatenate the emitted bytes. -/
def runWrites (matcher : List Nat → Bool) : WState → List WEvent → List Nat
  | _, [] => []
  | st, e :: rest =>
    (handleWrite matcher st e).1
      ++ runWrites matcher (handleWrite matcher st e).2 rest

/-- The dispatcher state at program start. -/
def initWState : WState := ⟨none, []⟩

/-- C10: a path whose OS string form is not valid UTF-8 never matches
(`to_str` returns `None`, so `match_path` is false for every regex,
including the default `.*`), and `handle_write` on such a path returns
with no output and no state change. -/
theorem matchPath_invalid_utf8 (matcher : List Nat → Bool) (raw : List Nat)
    (st : WState) (onDisk : Bool) (dump : List Nat) :
    matchPath matcher (.invalid raw) = false
    ∧ handleWrite matcher st ⟨.invalid raw, onDisk, dump⟩ = ([], st) := by
  constructor
  · rfl
  · simp [handleWrite, matchPath, OsStr.toStr?]

/-! ### C5: the binary filter -/

/-- A directory entry as the bootstrap walker sees it: its path, whether
it is a regular file, and the verdict of the binary classifier on its
first 1,024 bytes (`is_text`, an external collaborator per the spec). -/
structure FsEntry where
  path : OsStr
  isFile : Bool
  isText : Bool
deriving Repr, DecidableEq

/-- `PathFilter::filtered_files` (`src/filter.rs` lines 104-136): keep
regular files whose path matches the regex and, when `filter_binary`
(that is, `show_binary` unset), whose content is classified as text. -/
def filteredFiles (showBinary : Bool) (matcher : List Nat → Bool)
    (entries : List FsEntry) : List OsStr :=
  ((entries.filter (fun e => e.isFile && matchPath matcher e.path)).filter
    (fun e => if !showBinary then e.isText else true)).map (·.path)

/-- C5 counterexample: with `show_binary` unset, a WRITE event dispatched
for an on-disk binary file (content `[0x00]`, a NUL byte) whose path
matches the default regex produces a banner naming it followed by its
content: `handle_write` never consults the binary classifier, so the
claim's "across … all subsequently dispatched WRITE events" is false. -/
theorem handleWrite_binary_not_filtered :
    (handleWrite (fun _ => true) initWState ⟨.utf8 [98], true, [0]⟩).1
      = bannerBytes (.utf8 [98]) ++ [0]
    ∧ bannerBytes (.utf8 [98]) ++ [0] ≠ [] := by decide

/-- C5 (amended): the binary filter applies only to the bootstrap scan —
every path `filtered_files` yields with `show_binary` unset comes from an
entry classified as text — while a dispatched WRITE event is checked only
against the path regex: for any matching on-disk path, binary or not,
`handle_write` emits the banner transition followed by the dump's
bytes. -/
theorem binaryFilter_bootstrap_only (matcher : List Nat → Bool)
    (entries : List FsEntry) (st : WState) (e : WEvent)
    (hm : matchPath matcher e.path = true) (hd : e.onDisk = true) :
    (∀ p ∈ filteredFiles false matcher entries,
      ∃ en ∈ entries, en.path = p ∧ en.isText = true)
    ∧ (handleWrite matcher st e).1 = (changeSelectedFile st e.path).1 ++ e.dump := by
  constructor
  · intro p hp
    simp only [filteredFiles, List.mem_map, List.mem_filter] at hp
    obtain ⟨en, ⟨⟨hen, _⟩, htext⟩, hpath⟩ := hp
    refine ⟨en, hen, hpath, ?_⟩
    simpa using htext
  · unfold handleWrite
    rw [if_neg (by simp [hm])]
    rcases hl : lookupA e.path (changeSelectedFile st e.path).2.fileMap with _ | eol
    · simp [hl, hd]
    · simp [hl]

/-- Witness for `binaryFilter_bootstrap_only`: one binary entry (filtered
out of the bootstrap) and a WRITE event for it. -/
theorem binaryFilter_bootstrap_only_witness :
    matchPath (fun _ => true) (.utf8 [98]) = true
    ∧ (⟨.utf8 [98], true, [0]⟩ : WEvent).onDisk = true
    ∧ ((∀ p ∈ filteredFiles false (fun _ => true)
          [⟨.utf8 [98], true, false⟩],
        ∃ en ∈ ([⟨.utf8 [98], true, false⟩] : List FsEntry),
          en.path = p ∧ en.isText = true)
      ∧ (handleWrite (fun _ => true) initWState ⟨.utf8 [98], true, [0]⟩).1
          = (changeSelectedFile initWState (.utf8 [98])).1 ++ [0]) :=
  ⟨rfl, rfl,
    binaryFilter_bootstrap_only (fun _ => true) [⟨.utf8 [98], true, false⟩]
      initWState ⟨.utf8 [98], true, [0]⟩ rfl rfl⟩

/-! ### C3: banner-segmented structure of the write stream -/

/-- One banner-led group of the output stream: the bannered path, whether
the group was introduced with the extra newline (for `printed_eol` false
on the previously selected file), and the dump chunks emitted for it. -/
structure Seg where
  path : OsStr
  extra : Bool
  chunks : List (List Nat)
deriving Repr, DecidableEq

/-- The bytes of one group: the separator (absent for the program's first
group; otherwise the optional extra `\n` and the blank-line `\n`), the
banner line, then the group's content bytes. -/
def renderSeg (first : Bool) (s : Seg) : List Nat :=
  (if first then [] else (if s.extra then [10] else []) ++ [10])
    ++ bannerBytes s.path ++ s.chunks.flatten

def renderSegs : Bool → List Seg → List Nat
  | _, [] => []
  | first, s :: rest => renderSeg first s ++ renderSegs false rest

/-- All content bytes emitted for path `p` across the groups, in order. -/
def emittedFor (p : OsStr) (segs : List Seg) : List Nat :=
  ((segs.filter (fun s => s.path = p)).map (fun s => s.chunks.flatten)).flatten

/-- Well-formedness of a group list: `BC hist segs` says the groups `segs`
may follow the groups `hist`.  Each group's path differs from the path of
the group just before it, and its `extra` flag is set exactly when the
last content byte emitted for that previous path across the whole history
is not `0x0A` (a file that never emitted counts as not having ended in a
newline, matching its initial `printed_eol = false`). -/
inductive BC : List Seg → List Seg → Prop
  | nil (hist : List Seg) : BC hist []
  | cons (hist : List Seg) (s : Seg) (rest : List Seg)
      (hok : ∀ prev, hist.getLast? = some prev →
        prev.path ≠ s.path
        ∧ s.extra = !(decide ((emittedFor prev.path hist).getLast? = some 10)))
      (hrest : BC (hist ++ [s]) rest) : BC hist (s :: rest)

/-- The invariant tying the dispatcher state to the group decomposition
of the bytes emitted so far: the selected path is the last group's path,
an empty program has no tracked files, each tracked file's `printed_eol`
says whether its last emitted byte was `0x0A`, untracked files have
emitted nothing, and every group's path is tracked. -/
def WInv (st : WState) (segs : List Seg) : Prop :=
  st.selected = segs.getLast?.map Seg.path
  ∧ (st.selected = none → st.fileMap = [])
  ∧ (∀ p eol, lookupA p st.fileMap = some eol →
      eol = decide ((emittedFor p segs).getLast? = some 10))
  ∧ (∀ p, lookupA p st.fileMap = none → emittedFor p segs = [])
  ∧ (∀ s ∈ segs, lookupA s.path st.fileMap ≠ none)

theorem getLast?_append_right {α : Type} {l d : List α} (hd : d ≠ []) :
    (l ++ d).getLast? = d.getLast? := by
  obtain ⟨a, ha⟩ := Option.isSome_iff_exists.mp (List.getLast?_isSome.mpr hd)
  rw [List.getLast?_append, ha]
  rfl

theorem eolAfter_false (d : List Nat) :
    eolAfter false d = decide (d.getLast? = some 10) := by
  cases d with
  | nil => rfl
  | cons a l => simp [eolAfter]

theorem eolAfter_correct {old : Bool} {prevBytes : List Nat} (d : List Nat)
    (h : old = decide (prevBytes.getLast? = some 10)) :
    eolAfter old d = decide ((prevBytes ++ d).getLast? = some 10) := by
  by_cases hd : d = []
  · subst hd
    simp [eolAfter, h]
  · simp [eolAfter, hd, getLast?_append_right hd]

theorem renderSegs_append (f : Bool) (xs ys : List Seg) :
    renderSegs f (xs ++ ys) = renderSegs f xs ++ renderSegs (f && xs.isEmpty) ys := by
  induction xs generalizing f with
  | nil => simp [renderSegs]
  | cons x xs' ih =>
    simp [renderSegs, ih false, List.append_assoc]

theorem renderSeg_chunk (f : Bool) (s : Seg) (d : List Nat) :
    renderSeg f { s with chunks := s.chunks ++ [d] } = renderSeg f s ++ d := by
  simp [renderSeg, List.append_assoc]

theorem emittedFor_append (p : OsStr) (xs ys : List Seg) :
    emittedFor p (xs ++ ys) = emittedFor p xs ++ emittedFor p ys := by
  simp [emittedFor, List.filter_append]

theorem emittedFor_singleton (p : OsStr) (s : Seg) :
    emittedFor p [s] = if s.path = p then s.chunks.flatten else [] := by
  by_cases h : s.path = p
  · simp [emittedFor, List.filter, h]
  · simp [emittedFor, List.filter, h]

theorem getLast?_decomp {α : Type} {l : List α} {a : α} (h : l.getLast? = some a) :
    l = l.dropLast ++ [a] := by
  have hne : l ≠ [] := by
    intro hl
    subst hl
    simp at h
  have ha : l.getLast hne = a := by
    rw [List.getLast?_eq_getLast l hne] at h
    exact Option.some.inj h
  conv_lhs => rw [← List.dropLast_append_getLast hne]
  rw [ha]

theorem mem_of_getLast?_eq {α : Type} {l : List α} {a : α}
    (h : l.getLast? = some a) : a ∈ l := by
  rw [getLast?_decomp h]
  exact List.mem_append_right _ (by simp)

theorem BC_append_elim : ∀ {hist xs ys : List Seg}, BC hist (xs ++ ys) →
    BC hist xs ∧ BC (hist ++ xs) ys := by
  intro hist xs ys h
  induction xs generalizing hist with
  | nil =>
    refine ⟨BC.nil hist, ?_⟩
    simpa using h
  | cons x xs' ih =>
    rw [List.cons_append] at h
    cases h with
    | cons _ _ _ hok hrest =>
      obtain ⟨ha, hb⟩ := ih hrest
      refine ⟨BC.cons _ _ _ hok ha, ?_⟩
      rw [List.append_cons]
      exact hb

theorem BC_snoc : ∀ {hist xs : List Seg} {s : Seg}, BC hist xs →
    (∀ prev, (hist ++ xs).getLast? = some prev →
      prev.path ≠ s.path
      ∧ s.extra = !(decide ((emittedFor prev.path (hist ++ xs)).getLast? = some 10))) →
    BC hist (xs ++ [s]) := by
  intro hist xs s h
  induction h with
  | nil h' =>
    intro hok
    simp only [List.append_nil] at hok
    exact BC.cons _ _ _ hok (BC.nil _)
  | cons h' s' rest' hok' hrest' ih =>
    intro hok
    show BC h' (s' :: (rest' ++ [s]))
    refine BC.cons _ _ _ hok' (ih ?_)
    intro prev hp
    have h2 := hok prev (by rw [List.append_cons]; exact hp)
    rwa [List.append_cons] at h2

theorem BC_chunk_update {xs : List Seg} {s : Seg} (d : List Nat)
    (h : BC [] (xs ++ [s])) : BC [] (xs ++ [{ s with chunks := s.chunks ++ [d] }]) := by
  obtain ⟨h1, h2⟩ := BC_append_elim h
  simp only [List.nil_append] at h2
  cases h2 with
  | cons _ _ _ hok _ =>
    refine BC_snoc h1 ?_
    intro prev hp
    simp only [List.nil_append] at hp ⊢
    exact hok prev hp

/-- One dispatched WRITE event extends the group decomposition: the new
output is rendered by an updated group list that is still well-formed and
still tied to the dispatcher state. -/
theorem handleWrite_step (matcher : List Nat → Bool) (st : WState) (e : WEvent)
    (segs : List Seg) (hd : e.onDisk = true) (hinv : WInv st segs)
    (hbc : BC [] segs) :
    ∃ segs₁, BC [] segs₁
      ∧ renderSegs true segs₁ = renderSegs true segs ++ (handleWrite matcher st e).1
      ∧ WInv (handleWrite matcher st e).2 segs₁ := by
  obtain ⟨hsel, hempty, heol, hnone, hmem⟩ := hinv
  by_cases hm : matchPath matcher e.path = true
  case neg =>
    have hw : handleWrite matcher st e = ([], st) := by
      unfold handleWrite
      rw [if_pos hm]
    refine ⟨segs, hbc, ?_, ?_⟩ <;> rw [hw]
    · simp
    · exact ⟨hsel, hempty, heol, hnone, hmem⟩
  case pos =>
    have hcond : ¬ ¬ (matchPath matcher e.path = true) := not_not_intro hm
    cases hselOpt : st.selected with
    | none =>
      have hsegs : segs = [] := by
        rw [hselOpt] at hsel
        cases hgl : segs.getLast? with
        | none => exact List.getLast?_eq_none.mp hgl
        | some s => rw [hgl] at hsel; simp at hsel
      have hfm : st.fileMap = [] := hempty hselOpt
      have hcs : changeSelectedFile st e.path
          = (bannerBytes e.path, ⟨some e.path, st.fileMap⟩) := by
        simp [changeSelectedFile, hselOpt, printFilePath]
      have hl : lookupA e.path st.fileMap = none := by
        rw [hfm]
        rfl
      have hw : handleWrite matcher st e
          = (bannerBytes e.path ++ e.dump,
             ⟨some e.path, insertA e.path (eolAfter false e.dump) st.fileMap⟩) := by
        unfold handleWrite
        rw [if_neg hcond]
        simp only [hcs, hl, hd, if_true]
      refine ⟨[⟨e.path, false, [e.dump]⟩], ?_, ?_, ?_⟩
      · refine BC.cons _ _ _ ?_ (BC.nil _)
        intro prev hp
        simp at hp
      · rw [hw, hsegs]
        simp [renderSegs, renderSeg]
      · rw [hw]
        dsimp only
        refine ⟨by simp, by simp, ?_, ?_, ?_⟩
        · intro q eolq hq
          by_cases hq2 : q = e.path
          · subst hq2
            rw [lookupA_insertA_self] at hq
            have heolq : eolq = eolAfter false e.dump := (Option.some.inj hq).symm
            rw [heolq, emittedFor_singleton]
            simp [eolAfter_false]
          · rw [lookupA_insertA_ne hq2, hfm] at hq
            simp [lookupA] at hq
        · intro q hq
          have hq2 : q ≠ e.path := by
            intro h
            subst h
            rw [lookupA_insertA_self] at hq
            cases hq
          rw [emittedFor_singleton, if_neg (fun h => hq2 (Eq.symm h))]
        · intro t ht
          simp only [List.mem_singleton] at ht
          subst ht
          simp [lookupA_insertA_self]
    | some sel =>
      rw [hselOpt] at hsel
      obtain ⟨s, hgl, hspath⟩ : ∃ s, segs.getLast? = some s ∧ s.path = sel := by
        cases hgl0 : segs.getLast? with
        | none => rw [hgl0] at hsel; simp at hsel
        | some s =>
          rw [hgl0] at hsel
          exact ⟨s, rfl, by simpa using hsel.symm⟩
      have hsmem : s ∈ segs := mem_of_getLast?_eq hgl
      have hdecomp : segs = segs.dropLast ++ [s] := getLast?_decomp hgl
      by_cases hsame : sel = e.path
      · -- the selected file is written again: no banner
        subst hsame
        have hcs : changeSelectedFile st e.path = ([], st) := by
          simp [changeSelectedFile, hselOpt]
        obtain ⟨eol, hl⟩ : ∃ eol, lookupA e.path st.fileMap = some eol := by
          have hne := hmem s hsmem
          rw [hspath] at hne
          cases hl0 : lookupA e.path st.fileMap with
          | none => exact absurd hl0 hne
          | some eol => exact ⟨eol, rfl⟩
        have hw : handleWrite matcher st e
            = (e.dump, ⟨st.selected,
                insertA e.path (eolAfter eol e.dump) st.fileMap⟩) := by
          unfold handleWrite
          rw [if_neg hcond]
          simp only [hcs, hl]
          rw [List.nil_append]
        have hpre : ∀ q, q ≠ e.path →
            emittedFor q (segs.dropLast ++ [{ s with chunks := s.chunks ++ [e.dump] }])
              = emittedFor q segs := by
          intro q hq
          conv_rhs => rw [hdecomp]
          rw [emittedFor_append, emittedFor_append, emittedFor_singleton,
            emittedFor_singleton]
          have : s.path ≠ q := by rw [hspath]; exact fun h => hq h.symm
          simp [this]
        refine ⟨segs.dropLast ++ [{ s with chunks := s.chunks ++ [e.dump] }],
          ?_, ?_, ?_⟩
        · apply BC_chunk_update
          rw [← hdecomp]
          exact hbc
        · rw [hw]
          conv_rhs => rw [hdecomp]
          rw [renderSegs_append, renderSegs_append]
          simp [renderSegs, renderSeg_chunk, List.append_assoc]
        · rw [hw]
          dsimp only
          refine ⟨?_, by simp [hselOpt], ?_, ?_, ?_⟩
          · simp [hselOpt, List.getLast?_concat, hspath]
          · intro q eolq hq
            by_cases hq2 : q = e.path
            · subst hq2
              rw [lookupA_insertA_self] at hq
              have heolq : eolq = eolAfter eol e.dump := (Option.some.inj hq).symm
              have hEq : emittedFor e.path (segs.dropLast
                  ++ [{ s with chunks := s.chunks ++ [e.dump] }])
                  = emittedFor e.path segs ++ e.dump := by
                conv_rhs => rw [hdecomp]
                rw [emittedFor_append, emittedFor_append, emittedFor_singleton,
                  emittedFor_singleton]
                simp [hspath, List.append_assoc]
              rw [heolq, hEq]
              exact eolAfter_correct e.dump (heol e.path eol hl)
            · rw [lookupA_insertA_ne hq2] at hq
              rw [hpre q hq2]
              exact heol q eolq hq
          · intro q hq
            have hq2 : q ≠ e.path := by
              intro h
              subst h
              rw [lookupA_insertA_self] at hq
              cases hq
            rw [lookupA_insertA_ne hq2] at hq
            rw [hpre q hq2]
            exact hnone q hq
          · intro t ht
            rcases List.mem_append.mp ht with h1 | h2
            · have htm : t ∈ segs := by
                rw [hdecomp]
                exact List.mem_append_left _ h1
              have := hmem t htm
              by_cases ht2 : t.path = e.path
              · rw [ht2, lookupA_insertA_self]
                exact Option.noConfusion
              · rw [lookupA_insertA_ne ht2]
                exact this
            · simp only [List.mem_singleton] at h2
              subst h2
              have : ({ s with chunks := s.chunks ++ [e.dump] } : Seg).path = e.path :=
                hspath
              rw [this, lookupA_insertA_self]
              exact Option.noConfusion
      · -- transition to a different path: banner block then dump
        obtain ⟨eolSel, hlSel⟩ : ∃ x, lookupA sel st.fileMap = some x := by
          have hne := hmem s hsmem
          rw [hspath] at hne
          cases hl0 : lookupA sel st.fileMap with
          | none => exact absurd hl0 hne
          | some x => exact ⟨x, rfl⟩
        have heolSel : eolSel = decide ((emittedFor sel segs).getLast? = some 10) :=
          heol sel eolSel hlSel
        have hcs : changeSelectedFile st e.path
            = (((if eolSel then [] else [10]) ++ [10]) ++ bannerBytes e.path,
               ⟨some e.path, st.fileMap⟩) := by
          simp [changeSelectedFile, hselOpt, hsame, printFilePath, hlSel]
        have hbase : ∃ base,
            handleWrite matcher st e
              = ((((if eolSel then [] else [10]) ++ [10]) ++ bannerBytes e.path)
                   ++ e.dump,
                 ⟨some e.path, insertA e.path (eolAfter base e.dump) st.fileMap⟩)
            ∧ base = decide ((emittedFor e.path segs).getLast? = some 10) := by
          rcases hlP : lookupA e.path st.fileMap with _ | eolP
          · refine ⟨false, ?_, ?_⟩
            · unfold handleWrite
              rw [if_neg hcond]
              simp only [hcs, hlP, hd, if_true]
            · rw [hnone e.path hlP]
              rfl
          · refine ⟨eolP, ?_, heol e.path eolP hlP⟩
            unfold handleWrite
            rw [if_neg hcond]
            simp only [hcs, hlP]
        obtain ⟨base, hw, hbaseEq⟩ := hbase
        have hnonempty : segs.isEmpty = false := by
          rw [List.isEmpty_eq_false]
          intro h
          rw [h] at hgl
          simp at hgl
        have hpre : ∀ q, q ≠ e.path →
            emittedFor q (segs ++ [⟨e.path, !eolSel, [e.dump]⟩]) = emittedFor q segs := by
          intro q hq
          have hne : ¬ ((⟨e.path, !eolSel, [e.dump]⟩ : Seg).path = q) :=
            fun h => hq (Eq.symm h)
          rw [emittedFor_append, emittedFor_singleton, if_neg hne, List.append_nil]
        refine ⟨segs ++ [⟨e.path, !eolSel, [e.dump]⟩], ?_, ?_, ?_⟩
        · refine BC_snoc hbc ?_
          intro prev hp
          simp only [List.nil_append] at hp ⊢
          rw [hgl] at hp
          obtain rfl : prev = s := (Option.some.inj hp).symm
          refine ⟨?_, ?_⟩
          · rw [hspath]
            exact hsame
          · rw [hspath]
            show (!eolSel) = !(decide ((emittedFor sel segs).getLast? = some 10))
            rw [heolSel]
        · rw [hw]
          rw [renderSegs_append, hnonempty]
          simp only [Bool.and_false, renderSegs, renderSeg]
          cases eolSel <;> simp [List.append_assoc]
        · rw [hw]
          dsimp only
          refine ⟨?_, by simp, ?_, ?_, ?_⟩
          · simp [List.getLast?_concat]
          · intro q eolq hq
            by_cases hq2 : q = e.path
            · subst hq2
              rw [lookupA_insertA_self] at hq
              have heolq : eolq = eolAfter base e.dump := (Option.some.inj hq).symm
              have hEq : emittedFor e.path (segs ++ [⟨e.path, !eolSel, [e.dump]⟩])
                  = emittedFor e.path segs ++ e.dump := by
                rw [emittedFor_append, emittedFor_singleton]
                simp
              rw [heolq, hEq]
              exact eolAfter_correct e.dump hbaseEq
            · rw [lookupA_insertA_ne hq2] at hq
              rw [hpre q hq2]
              exact heol q eolq hq
          · intro q hq
            have hq2 : q ≠ e.path := by
              intro h
              subst h
              rw [lookupA_insertA_self] at hq
              cases hq
            rw [lookupA_insertA_ne hq2] at hq
            rw [hpre q hq2]
            exact hnone q hq
          · intro t ht
            rcases List.mem_append.mp ht with h1 | h2
            · have := hmem t h1
              by_cases ht2 : t.path = e.path
              · rw [ht2, lookupA_insertA_self]
                exact Option.noConfusion
              · rw [lookupA_insertA_ne ht2]
                exact this
            · simp only [List.mem_singleton] at h2
              subst h2
              rw [show (⟨e.path, !eolSel, [e.dump]⟩ : Seg).path = e.path from rfl,
                lookupA_insertA_self]
              exact Option.noConfusion

/-- Running WRITE events from a state already decomposed into well-formed
groups appends output that extends some well-formed decomposition. -/
theorem runWrites_bc (matcher : List Nat → Bool) :
    ∀ (events : List WEvent) (st : WState) (segs : List Seg),
    (∀ e ∈ events, e.onDisk = true) → WInv st segs → BC [] segs →
    ∃ segs', BC [] segs'
      ∧ renderSegs true segs' = renderSegs true segs ++ runWrites matcher st events := by
  intro events
  induction events with
  | nil =>
    intro st segs hex hinv hbc
    exact ⟨segs, hbc, by simp [runWrites]⟩
  | cons e rest ih =>
    intro st segs hex hinv hbc
    obtain ⟨segs₁, hbc₁, hr₁, hinv₁⟩ :=
      handleWrite_step matcher st e segs (hex e (by simp)) hinv hbc
    obtain ⟨segs', hbc', hr'⟩ := ih (handleWrite matcher st e).2 segs₁
      (fun e' he' => hex e' (by simp [he'])) hinv₁ hbc₁
    refine ⟨segs', hbc', ?_⟩
    rw [hr', hr₁]
    simp [runWrites, List.append_assoc]

/-- C3: every output stream the write dispatcher produces from program
start decomposes into banner-led groups (`renderSegs true segs` with
`BC [] segs`): the program's very first banner appears with no preceding
newline bytes; every later group opens with the blank-line separator `\n`,
preceded by one extra `\n` exactly when the last byte emitted for the
previous group's file was not `0x0A` (a file that never emitted content
counts as not ending in a newline, matching its initial
`printed_eol = false`); then the banner line `==> <path> <==\n`; then that
file's content bytes.  Consecutive groups name different files, so between
any two successive content bytes belonging to different files a banner
line with its separator stands. -/
theorem runWrites_banner_structure (matcher : List Nat → Bool)
    (events : List WEvent) (hex : ∀ e ∈ events, e.onDisk = true) :
    ∃ segs, BC [] segs
      ∧ runWrites matcher initWState events = renderSegs true segs := by
  have hinv : WInv initWState [] := by
    refine ⟨rfl, fun _ => rfl, ?_, fun _ _ => rfl, by simp⟩
    intro p eol h
    simp [lookupA, initWState] at h
  obtain ⟨segs, hbc, hr⟩ := runWrites_bc matcher events initWState [] hex hinv (BC.nil [])
  exact ⟨segs, hbc, by simpa using hr.symm⟩

/-- Witness for `runWrites_banner_structure`: two writes to different
files, the first file's content not newline-terminated. -/
theorem runWrites_banner_structure_witness :
    (∀ e ∈ ([⟨.utf8 [97], true, [120]⟩, ⟨.utf8 [98], true, [121]⟩] : List WEvent),
      e.onDisk = true)
    ∧ ∃ segs, BC [] segs
      ∧ runWrites (fun _ => true) initWState
          [⟨.utf8 [97], true, [120]⟩, ⟨.utf8 [98], true, [121]⟩]
        = renderSegs true segs :=
  ⟨by decide, runWrites_banner_structure (fun _ => true) _ (by decide)⟩

-- The same two-event stream, byte for byte: banner `==> a <==`, content
-- `x`, closing newline plus blank-line separator, banner `==> b <==`,
-- content `y`.
example : runWrites (fun _ => true) initWState
      [⟨.utf8 [97], true, [120]⟩, ⟨.utf8 [98], true, [121]⟩]
    = [61, 61, 62, 32, 97, 32, 60, 61, 61, 10] ++ [120]
      ++ [10] ++ [10]
      ++ [61, 61, 62, 32, 98, 32, 60, 61, 61, 10] ++ [121] := by decide

end Regtail
